import Mathlib

/-!
Verification of the text-overlay core of an OCR-based image-translation
application (source: `app.py`).

The pixel-width measurement performed by
`draw.textlength(text, font=load_font(size))` is modelled by an abstract
function `measure : String → ℕ → ℚ` (string and font size to pixel width),
and the character-height metric derived from `font.getbbox("A")` by an
abstract `charH : ℕ → ℚ`.  Box coordinates are integers, exactly as in the
source (they come from `int(p[0])`, `min`/`max` and clamping).  Python
floats are modelled by rationals, and Python `int()` by truncation toward
zero.  Fallible steps return `Option`.
-/

namespace OCRApp

/-- Python `int(q)` on a float value: truncation toward zero. -/
def pyInt (q : ℚ) : ℤ := if 0 ≤ q then ⌊q⌋ else -⌊-q⌋

/-- `line_height_approx = size * 1.2; max_lines = int(box_height / line_height_approx)`
(app.py lines 84-85, and lines 123-124 where `size = 12`).  Sizes used by the
program are always in `[12, 40]`, so the divisor is nonzero. -/
def maxLinesZ (box_height : ℤ) (size : ℕ) : ℤ :=
  pyInt ((box_height : ℚ) / ((size : ℚ) * (6 / 5)))

/-- Helper for `pySplit`: walk the characters, accumulating the current word
(in reverse); whitespace closes the current word, empty pieces are dropped. -/
def pySplitAux : List Char → List Char → List String
  | [], acc => if acc = [] then [] else [⟨acc.reverse⟩]
  | c :: cs, acc =>
    if c.isWhitespace then
      (if acc = [] then [] else [⟨acc.reverse⟩]) ++ pySplitAux cs []
    else pySplitAux cs (c :: acc)

/-- Python `text.split()` (no separator argument): split on runs of
whitespace, never producing empty words (app.py lines 74 and 125). -/
def pySplit (s : String) : List String := pySplitAux s.data []

/-- `test_line = current_line + (" " if current_line else "") + word`
(app.py lines 91 and 134). -/
def testLine (cur w : String) : String :=
  cur ++ (if cur = "" then "" else " ") ++ w

/-- The word loop of `wrap_text_and_find_font` at one candidate size
(app.py lines 89-108).  State: accumulated `wrapped_lines` and
`current_line`.  Returns the state at loop exit; the loop breaks early with
`current_line = ""` on a height or width failure. -/
def wrapLoop (measure : String → ℕ → ℚ) (size : ℕ) (bw : ℤ) (maxL : ℤ) :
    List String → List String → String → List String × String
  | [], acc, cur => (acc, cur)
  | w :: ws, acc, cur =>
    let t := testLine cur w
    if measure t size ≤ (bw : ℚ) then
      wrapLoop measure size bw maxL ws acc t
    else
      let acc' := acc ++ [cur]
      if maxL ≤ (acc'.length : ℤ) then (acc', "")
      else if (bw : ℚ) < measure w size then (acc', "")
      else wrapLoop measure size bw maxL ws acc' w

/-- One iteration of the size loop of `wrap_text_and_find_font`
(app.py lines 72-119): `some lines` when this size succeeds and the
function returns, `none` when the iteration falls through (`continue`)
to the next candidate size. -/
def wrapAtSize (measure : String → ℕ → ℚ) (size : ℕ) (bw bh : ℤ)
    (words : List String) : Option (List String) :=
  if words = [] then some []
  else
    let maxL := maxLinesZ bh size
    if maxL = 0 then none
    else
      let r := wrapLoop measure size bw maxL words [] ""
      if r.2 = "" then none
      else
        let acc' := r.1 ++ [r.2]
        if maxL < (acc'.length : ℤ) then none else some acc'

/-- The word loop of the best-effort fallback pass at size 12
(app.py lines 133-146).  On an over-full box it stops adding lines instead
of failing; an over-wide single word is allowed through (`pass`). -/
def fallbackLoop (measure : String → ℕ → ℚ) (bw : ℤ) (maxL : ℤ) :
    List String → List String → String → List String × String
  | [], acc, cur => (acc, cur)
  | w :: ws, acc, cur =>
    let t := testLine cur w
    if measure t 12 ≤ (bw : ℚ) then fallbackLoop measure bw maxL ws acc t
    else
      if (acc.length : ℤ) < maxL then fallbackLoop measure bw maxL ws (acc ++ [cur]) w
      else (acc, "")

/-- The fallback pass at the smallest size (app.py lines 121-152). -/
def fallbackWrap (measure : String → ℕ → ℚ) (bw bh : ℤ)
    (words : List String) : List String :=
  let maxL := maxLinesZ bh 12
  if words = [] then []
  else if maxL = 0 then []
  else
    let r := fallbackLoop measure bw maxL words [] ""
    if r.2 ≠ "" ∧ (r.1.length : ℤ) < maxL then r.1 ++ [r.2] else r.1

/-- `range(40, 11, -2)` (app.py line 72). -/
def sizesList : List ℕ := [40, 38, 36, 34, 32, 30, 28, 26, 24, 22, 20, 18, 16, 14, 12]

/-- The size loop of app.py lines 72-119: the first size whose wrap
succeeds is returned together with its lines. -/
def searchSizes (measure : String → ℕ → ℚ) (bw bh : ℤ) (words : List String) :
    List ℕ → Option (ℕ × List String)
  | [] => none
  | s :: rest =>
    match wrapAtSize measure s bw bh words with
    | some lines => some (s, lines)
    | none => searchSizes measure bw bh words rest

/-- `wrap_text_and_find_font` (app.py lines 66-152): search sizes 40,38,…,12,
fall back to the best-effort pass at 12 when every size fails.  The result is
the chosen font size together with the wrapped lines. -/
def wrap_text_and_find_font (measure : String → ℕ → ℚ) (text : String)
    (bw bh : ℤ) : ℕ × List String :=
  let words := pySplit text
  match searchSizes measure bw bh words sizesList with
  | some r => r
  | none => (12, fallbackWrap measure bw bh words)

/-- A size loop that returned `none` tried and failed every size in its list. -/
theorem searchSizes_none (measure : String → ℕ → ℚ) (bw bh : ℤ) (words : List String) :
    ∀ l : List ℕ, searchSizes measure bw bh words l = none →
      ∀ s ∈ l, wrapAtSize measure s bw bh words = none := by
  intro l
  induction l with
  | nil => intro _ s hs; simp at hs
  | cons a rest ih =>
    intro h s hs
    simp only [searchSizes] at h
    rcases hw : wrapAtSize measure a bw bh words with _ | lines
    · rw [hw] at h
      rcases List.mem_cons.mp hs with rfl | hs'
      · exact hw
      · exact ih h s hs'
    · rw [hw] at h; simp at h

/-- A size loop over a strictly decreasing list that returns `some (s, ls)`
found the first, hence largest, succeeding size. -/
theorem searchSizes_some (measure : String → ℕ → ℚ) (bw bh : ℤ) (words : List String) :
    ∀ l : List ℕ, List.Sorted (· > ·) l →
      ∀ s ls, searchSizes measure bw bh words l = some (s, ls) →
        s ∈ l ∧ wrapAtSize measure s bw bh words = some ls ∧
          ∀ s' ∈ l, s < s' → wrapAtSize measure s' bw bh words = none := by
  intro l
  induction l with
  | nil => intro _ s ls h; simp [searchSizes] at h
  | cons a rest ih =>
    intro hsort s ls h
    simp only [searchSizes] at h
    rcases hw : wrapAtSize measure a bw bh words with _ | lines
    · rw [hw] at h
      have h' := ih (List.sorted_cons.mp hsort).2 s ls h
      refine ⟨List.mem_cons_of_mem a h'.1, h'.2.1, ?_⟩
      intro s' hs' hlt
      rcases List.mem_cons.mp hs' with rfl | hmem
      · exact hw
      · exact h'.2.2 s' hmem hlt
    · rw [hw] at h
      simp only [Option.some.injEq, Prod.mk.injEq] at h
      obtain ⟨rfl, rfl⟩ := h
      refine ⟨List.mem_cons_self a rest, hw, ?_⟩
      intro s' hs' hlt
      rcases List.mem_cons.mp hs' with rfl | hmem
      · omega
      · have := (List.sorted_cons.mp hsort).1 s' hmem
        omega

/-- `sizesList` is strictly decreasing. -/
theorem sizesList_sorted : List.Sorted (· > ·) sizesList := by decide

/-- C1: for every text and box, the font size search iterates candidate sizes
40, 38, …, 12 in decreasing order and returns the first (hence largest) size
in that set at which the word-wrap succeeds, together with that wrap's lines;
if no size in the set succeeds, it returns size 12 with the lines of the
best-effort fallback pass.  The returned size is always a member of
`sizesList = [40, 38, …, 12]`. -/
theorem fontSearch_spec (measure : String → ℕ → ℚ) (text : String) (bw bh : ℤ) :
    (wrap_text_and_find_font measure text bw bh).1 ∈ sizesList ∧
    (∀ s ∈ sizesList, (wrap_text_and_find_font measure text bw bh).1 < s →
      wrapAtSize measure s bw bh (pySplit text) = none) ∧
    ((∃ s ∈ sizesList, (wrapAtSize measure s bw bh (pySplit text)).isSome) →
      wrapAtSize measure (wrap_text_and_find_font measure text bw bh).1 bw bh
          (pySplit text) =
        some (wrap_text_and_find_font measure text bw bh).2) ∧
    ((∀ s ∈ sizesList, wrapAtSize measure s bw bh (pySplit text) = none) →
      wrap_text_and_find_font measure text bw bh =
        (12, fallbackWrap measure bw bh (pySplit text))) := by
  rcases h : searchSizes measure bw bh (pySplit text) sizesList with _ | ⟨s, ls⟩
  · have hall := searchSizes_none measure bw bh (pySplit text) sizesList h
    have hr : wrap_text_and_find_font measure text bw bh =
        (12, fallbackWrap measure bw bh (pySplit text)) := by
      simp only [wrap_text_and_find_font, h]
    refine ⟨by rw [hr]; exact (by decide : (12 : ℕ) ∈ sizesList), ?_, ?_, fun _ => hr⟩
    · intro s' hs' _
      exact hall s' hs'
    · rintro ⟨s', hs', hsome⟩
      rw [hall s' hs'] at hsome
      simp at hsome
  · have h' := searchSizes_some measure bw bh (pySplit text) sizesList
      sizesList_sorted s ls h
    have hr : wrap_text_and_find_font measure text bw bh = (s, ls) := by
      simp only [wrap_text_and_find_font, h]
    rw [hr]
    refine ⟨h'.1, fun s' hs' hlt => h'.2.2 s' hs' hlt, fun _ => h'.2.1, ?_⟩
    intro hnone
    exact absurd (h'.2.1) (by rw [hnone s h'.1]; simp)

/-- A concrete measure: the pixel width of a string is its character count. -/
def mLen : String → ℕ → ℚ := fun s _ => (s.length : ℚ)

/-- `maxLinesZ` at the concrete inputs used by the witnesses below. -/
theorem maxLinesZ_50_40 : maxLinesZ 50 40 = 1 := by
  norm_num [maxLinesZ, pyInt]

/-- At size 40, the text `"hi"` wraps into the single line `"hi"` in a
100 × 50 box. -/
theorem wrapAtSize_hi : wrapAtSize mLen 40 100 50 (pySplit "hi") = some ["hi"] := by
  have hs : pySplit "hi" = ["hi"] := by decide
  rw [hs]
  simp only [wrapAtSize, maxLinesZ_50_40]
  decide

/-- Witness for C1: on a concrete input where size 40 succeeds, the search
returns a size from the candidate set and that size's wrap result. -/
theorem fontSearch_spec_witness :
    (wrap_text_and_find_font mLen "hi" 100 50).1 ∈ sizesList ∧
    wrapAtSize mLen (wrap_text_and_find_font mLen "hi" 100 50).1 100 50
        (pySplit "hi") =
      some (wrap_text_and_find_font mLen "hi" 100 50).2 := by
  have h := fontSearch_spec mLen "hi" 100 50
  exact ⟨h.1, h.2.2.1 ⟨40, by decide, by rw [wrapAtSize_hi]; rfl⟩⟩

/-- For a nonnegative argument, Python truncation agrees with the floor. -/
theorem maxLinesZ_eq_floor (bh : ℤ) (size : ℕ) (hbh : 0 ≤ bh) :
    maxLinesZ bh size = ⌊(bh : ℚ) / ((6 / 5 : ℚ) * (size : ℚ))⌋ := by
  unfold maxLinesZ pyInt
  rw [if_pos, mul_comm ((size : ℚ)) ((6 / 5 : ℚ))]
  apply div_nonneg
  · exact_mod_cast hbh
  · positivity

/-- For a box of nonnegative height, `max_lines` is nonnegative. -/
theorem maxLinesZ_nonneg (bh : ℤ) (size : ℕ) (hbh : 0 ≤ bh) :
    0 ≤ maxLinesZ bh size := by
  rw [maxLinesZ_eq_floor bh size hbh]
  apply Int.floor_nonneg.mpr
  apply div_nonneg
  · exact_mod_cast hbh
  · positivity

/-- The fallback word loop never grows `wrapped_lines` beyond `max_lines`:
lines are appended only after an explicit `len(wrapped_lines) < max_lines`
check. -/
theorem fallbackLoop_length (measure : String → ℕ → ℚ) (bw maxL : ℤ) :
    ∀ ws acc cur, (acc.length : ℤ) ≤ maxL →
      (((fallbackLoop measure bw maxL ws acc cur).1.length : ℤ) ≤ maxL) := by
  intro ws
  induction ws with
  | nil =>
    intro acc cur h
    simpa [fallbackLoop] using h
  | cons w ws ih =>
    intro acc cur h
    simp only [fallbackLoop]
    by_cases hfit : measure (testLine cur w) 12 ≤ (bw : ℚ)
    · rw [if_pos hfit]
      exact ih acc _ h
    · rw [if_neg hfit]
      by_cases hlen : (acc.length : ℤ) < maxL
      · rw [if_pos hlen]
        apply ih
        simp only [List.length_append, List.length_cons, List.length_nil]
        push_cast
        omega
      · rw [if_neg hlen]
        exact h

/-- C2: for every successful WrapResult, including the fallback pass at
size 12, the number of returned lines is at most
`floor(box_height / (1.2 * size))`. -/
theorem wrap_height_bound (measure : String → ℕ → ℚ) (size : ℕ) (bw bh : ℤ)
    (words : List String) (hbh : 0 ≤ bh) :
    (∀ lines, wrapAtSize measure size bw bh words = some lines →
      (lines.length : ℤ) ≤ ⌊(bh : ℚ) / ((6 / 5 : ℚ) * (size : ℚ))⌋) ∧
    ((fallbackWrap measure bw bh words).length : ℤ) ≤
      ⌊(bh : ℚ) / ((6 / 5 : ℚ) * (12 : ℚ))⌋ := by
  constructor
  · intro lines h
    rw [← maxLinesZ_eq_floor bh size hbh]
    unfold wrapAtSize at h
    by_cases hw : words = []
    · rw [if_pos hw] at h
      obtain rfl : ([] : List String) = lines := by simpa using h
      simpa using maxLinesZ_nonneg bh size hbh
    · rw [if_neg hw] at h
      by_cases hm : maxLinesZ bh size = 0
      · simp [hm] at h
      · rw [if_neg hm] at h
        by_cases hcur : (wrapLoop measure size bw (maxLinesZ bh size) words [] "").2 = ""
        · rw [if_pos hcur] at h; simp at h
        · rw [if_neg hcur] at h
          by_cases hlen : maxLinesZ bh size <
              (((wrapLoop measure size bw (maxLinesZ bh size) words [] "").1 ++
                [(wrapLoop measure size bw (maxLinesZ bh size) words [] "").2]).length : ℤ)
          · rw [if_pos hlen] at h; simp at h
          · rw [if_neg hlen] at h
            obtain rfl :
                (wrapLoop measure size bw (maxLinesZ bh size) words [] "").1 ++
                  [(wrapLoop measure size bw (maxLinesZ bh size) words [] "").2] = lines := by
              simpa using h
            omega
  · have h12 : ⌊(bh : ℚ) / ((6 / 5 : ℚ) * (12 : ℚ))⌋ = maxLinesZ bh 12 := by
      rw [maxLinesZ_eq_floor bh 12 hbh]
      norm_num
    rw [h12]
    unfold fallbackWrap
    by_cases hw : words = []
    · rw [if_pos hw]
      simpa using maxLinesZ_nonneg bh 12 hbh
    · rw [if_neg hw]
      by_cases hm : maxLinesZ bh 12 = 0
      · rw [if_pos hm]
        simpa using maxLinesZ_nonneg bh 12 hbh
      · rw [if_neg hm]
        have hloop := fallbackLoop_length measure bw (maxLinesZ bh 12) words [] ""
          (by simpa using maxLinesZ_nonneg bh 12 hbh)
        by_cases hfin : (fallbackLoop measure bw (maxLinesZ bh 12) words [] "").2 ≠ "" ∧
            (((fallbackLoop measure bw (maxLinesZ bh 12) words [] "").1.length : ℤ) <
              maxLinesZ bh 12)
        · rw [if_pos hfin]
          simp only [List.length_append, List.length_cons, List.length_nil]
          push_cast
          omega
        · rw [if_neg hfin]
          exact hloop

/-- Witness for C2 at a concrete success and a concrete fallback input. -/
theorem wrap_height_bound_witness :
    (((["hi"] : List String).length : ℤ) ≤ ⌊(50 : ℚ) / ((6 / 5 : ℚ) * (40 : ℚ))⌋) ∧
    ((fallbackWrap mLen 100 50 ["hi"]).length : ℤ) ≤
      ⌊(50 : ℚ) / ((6 / 5 : ℚ) * (12 : ℚ))⌋ := by
  have h := wrap_height_bound mLen 40 100 50 ["hi"] (by norm_num)
  refine ⟨h.1 ["hi"] ?_, h.2⟩
  have hs : pySplit "hi" = ["hi"] := by decide
  rw [← hs]
  exact wrapAtSize_hi

/-- The closing of an empty `current_line` starts from an empty word list
only: with a nonempty word, `test_line` is nonempty. -/
theorem testLine_ne_empty (cur w : String) (hw : w ≠ "") : testLine cur w ≠ "" := by
  intro h
  have hlen := congrArg String.length h
  simp [testLine, String.length_append] at hlen
  apply hw
  cases w with
  | mk data =>
    have : String.length ⟨data⟩ = 0 := hlen.2
    simp [String.length] at this
    simp [this]

/-- With an empty `current_line`, `test_line` is just the word itself. -/
theorem testLine_empty_left (w : String) : testLine "" w = w := rfl

/-- Invariant of the greedy word loop at one size: starting from lines that
all fit and are nonempty, if the loop exits without the failure marker
(`current_line = ""`) then every accumulated line and the final line fit
within `box_width` and are nonempty. -/
theorem wrapLoop_invariant (measure : String → ℕ → ℚ) (size : ℕ) (bw maxL : ℤ) :
    ∀ ws acc cur, (∀ w ∈ ws, w ≠ "") →
      (∀ l ∈ acc, measure l size ≤ (bw : ℚ) ∧ l ≠ "") →
      (cur = "" ∨ (measure cur size ≤ (bw : ℚ) ∧ cur ≠ "")) →
      (wrapLoop measure size bw maxL ws acc cur).2 ≠ "" →
      (∀ l ∈ (wrapLoop measure size bw maxL ws acc cur).1,
          measure l size ≤ (bw : ℚ) ∧ l ≠ "") ∧
        measure (wrapLoop measure size bw maxL ws acc cur).2 size ≤ (bw : ℚ) ∧
        (wrapLoop measure size bw maxL ws acc cur).2 ≠ "" := by
  intro ws
  induction ws with
  | nil =>
    intro acc cur _ hacc hcur hne
    simp only [wrapLoop] at hne ⊢
    rcases hcur with rfl | hcur
    · exact absurd rfl hne
    · exact ⟨hacc, hcur.1, hcur.2⟩
  | cons w ws ih =>
    intro acc cur hws hacc hcur hne
    have hw : w ≠ "" := hws w (List.mem_cons_self _ _)
    have hws' : ∀ w' ∈ ws, w' ≠ "" := fun w' h => hws w' (List.mem_cons_of_mem _ h)
    simp only [wrapLoop] at hne ⊢
    by_cases hfit : measure (testLine cur w) size ≤ (bw : ℚ)
    · rw [if_pos hfit] at hne ⊢
      exact ih _ _ hws' hacc (Or.inr ⟨hfit, testLine_ne_empty cur w hw⟩) hne
    · rw [if_neg hfit] at hne ⊢
      by_cases hh : maxL ≤ (((acc ++ [cur]).length : ℤ))
      · rw [if_pos hh] at hne ⊢
        exact absurd rfl hne
      · rw [if_neg hh] at hne ⊢
        by_cases hwide : (bw : ℚ) < measure w size
        · rw [if_pos hwide] at hne ⊢
          exact absurd rfl hne
        · rw [if_neg hwide] at hne ⊢
          have hcur' : measure cur size ≤ (bw : ℚ) ∧ cur ≠ "" := by
            rcases hcur with rfl | h
            · exact absurd (testLine_empty_left w ▸ not_lt.mp hwide) hfit
            · exact h
          refine ih _ _ hws' ?_ (Or.inr ⟨not_lt.mp hwide, hw⟩) hne
          intro l hl
          rcases List.mem_append.mp hl with h | h
          · exact hacc l h
          · rw [List.mem_singleton.mp h]
            exact hcur'

/-- Every word produced by `pySplit` is nonempty. -/
theorem pySplitAux_ne_empty : ∀ cs acc, ∀ w ∈ pySplitAux cs acc, w ≠ "" := by
  intro cs
  induction cs with
  | nil =>
    intro acc w hw
    simp only [pySplitAux] at hw
    by_cases h : acc = []
    · rw [if_pos h] at hw
      simp at hw
    · rw [if_neg h] at hw
      rw [List.mem_singleton.mp hw]
      intro hc
      simp [String.ext_iff] at hc
      exact h hc
  | cons c cs ih =>
    intro acc w hw
    simp only [pySplitAux] at hw
    by_cases hws : c.isWhitespace
    · rw [if_pos hws] at hw
      rcases List.mem_append.mp hw with h | h
      · by_cases hacc : acc = []
        · rw [if_pos hacc] at h
          simp at h
        · rw [if_neg hacc] at h
          rw [List.mem_singleton.mp h]
          intro hc
          simp [String.ext_iff] at hc
          exact hacc hc
      · exact ih [] w h
    · rw [if_neg hws] at hw
      exact ih _ w hw

/-- Every word produced by `pySplit` is nonempty. -/
theorem pySplit_ne_empty (s : String) : ∀ w ∈ pySplit s, w ≠ "" :=
  pySplitAux_ne_empty s.data []

/-- A successful non-fallback wrap consists of lines that fit the width
budget and are nonempty. -/
theorem wrapAtSize_lines_prop (measure : String → ℕ → ℚ) (size : ℕ) (bw bh : ℤ)
    (words : List String) (lines : List String) (hwords : ∀ w ∈ words, w ≠ "")
    (h : wrapAtSize measure size bw bh words = some lines) :
    ∀ l ∈ lines, measure l size ≤ (bw : ℚ) ∧ l ≠ "" := by
  unfold wrapAtSize at h
  by_cases hw : words = []
  · rw [if_pos hw] at h
    obtain rfl : ([] : List String) = lines := by simpa using h
    simp
  · rw [if_neg hw] at h
    by_cases hm : maxLinesZ bh size = 0
    · simp [hm] at h
    · rw [if_neg hm] at h
      by_cases hcur : (wrapLoop measure size bw (maxLinesZ bh size) words [] "").2 = ""
      · rw [if_pos hcur] at h; simp at h
      · rw [if_neg hcur] at h
        have hinv := wrapLoop_invariant measure size bw (maxLinesZ bh size) words [] ""
          hwords (by simp) (Or.inl rfl) hcur
        by_cases hlen : maxLinesZ bh size <
            (((wrapLoop measure size bw (maxLinesZ bh size) words [] "").1 ++
              [(wrapLoop measure size bw (maxLinesZ bh size) words [] "").2]).length : ℤ)
        · rw [if_pos hlen] at h; simp at h
        · rw [if_neg hlen] at h
          obtain rfl :
              (wrapLoop measure size bw (maxLinesZ bh size) words [] "").1 ++
                [(wrapLoop measure size bw (maxLinesZ bh size) words [] "").2] = lines := by
            simpa using h
          intro l hl
          rcases List.mem_append.mp hl with h' | h'
          · exact hinv.1 l h'
          · rw [List.mem_singleton.mp h']
            exact hinv.2

/-- C3: for every non-fallback successful WrapResult at size `s`, every
returned line measures within `box_width`. -/
theorem wrap_width_bound (measure : String → ℕ → ℚ) (size : ℕ) (bw bh : ℤ)
    (text : String) (lines : List String)
    (h : wrapAtSize measure size bw bh (pySplit text) = some lines) :
    ∀ l ∈ lines, measure l size ≤ (bw : ℚ) := fun l hl =>
  (wrapAtSize_lines_prop measure size bw bh (pySplit text) lines
    (pySplit_ne_empty text) h l hl).1

/-- Witness for C3: the single wrapped line of the concrete success fits. -/
theorem wrap_width_bound_witness : mLen "hi" 40 ≤ ((100 : ℤ) : ℚ) :=
  wrap_width_bound mLen 40 100 50 "hi" ["hi"] wrapAtSize_hi "hi" (by simp)

/-- C10: every line of a non-fallback successful WrapResult is nonempty. -/
theorem wrap_lines_nonempty (measure : String → ℕ → ℚ) (size : ℕ) (bw bh : ℤ)
    (text : String) (lines : List String)
    (h : wrapAtSize measure size bw bh (pySplit text) = some lines) :
    ∀ l ∈ lines, l ≠ "" := fun l hl =>
  (wrapAtSize_lines_prop measure size bw bh (pySplit text) lines
    (pySplit_ne_empty text) h l hl).2

/-- Witness for C10: the single wrapped line of the concrete success is
nonempty. -/
theorem wrap_lines_nonempty_witness : ("hi" : String) ≠ "" :=
  wrap_lines_nonempty mLen 40 100 50 "hi" ["hi"] wrapAtSize_hi "hi" (by simp)

/-- `max_lines` for a 100-pixel-high box at size 12: `int(100 / 14.4) = 6`. -/
theorem maxLinesZ_100_12 : maxLinesZ 100 12 = 6 := by
  norm_num [maxLinesZ, pyInt]

/-- A single over-wide word makes the wrap at size 12 fail (width failure). -/
theorem wrapFail_width : wrapAtSize mLen 12 5 100 ["abcdef"] = none := by
  simp only [wrapAtSize, maxLinesZ_100_12]
  decide

/-- Seven fitting words that need seven lines in a six-line box make the
wrap at size 12 fail (height failure). -/
theorem wrapFail_height : wrapAtSize mLen 12 5 100 (List.replicate 7 "aaaa") = none := by
  simp only [wrapAtSize, maxLinesZ_100_12]
  decide

/-- Counterexample to C4: a width failure (a single word alone exceeds
`box_width`) and a height failure (more lines needed than `max_lines`
allows) produce the exact same observable result, so the two failure kinds
are not observably different. -/
theorem wrapFailure_counterexample :
    (∃ w ∈ (["abcdef"] : List String), ((5 : ℤ) : ℚ) < mLen w 12) ∧
    (∀ w ∈ List.replicate 7 "aaaa", mLen w 12 ≤ ((5 : ℤ) : ℚ)) ∧
    wrapAtSize mLen 12 5 100 ["abcdef"] = none ∧
    wrapAtSize mLen 12 5 100 (List.replicate 7 "aaaa") = none ∧
    wrapAtSize mLen 12 5 100 ["abcdef"] =
      wrapAtSize mLen 12 5 100 (List.replicate 7 "aaaa") :=
  ⟨⟨"abcdef", by decide, by decide⟩, by decide, wrapFail_width, wrapFail_height,
    by rw [wrapFail_width, wrapFail_height]⟩

/-- C4 (amended): all wrap failures at a size are observationally identical —
the attempt is abandoned with the same failure signal, whatever the cause. -/
theorem wrapFailure_uniform (m₁ m₂ : String → ℕ → ℚ) (s₁ s₂ : ℕ)
    (bw₁ bw₂ bh₁ bh₂ : ℤ) (ws₁ ws₂ : List String)
    (h₁ : wrapAtSize m₁ s₁ bw₁ bh₁ ws₁ = none)
    (h₂ : wrapAtSize m₂ s₂ bw₂ bh₂ ws₂ = none) :
    wrapAtSize m₁ s₁ bw₁ bh₁ ws₁ = wrapAtSize m₂ s₂ bw₂ bh₂ ws₂ := by
  rw [h₁, h₂]

/-- Witness for the amended C4: the concrete width failure and height
failure have equal outputs. -/
theorem wrapFailure_uniform_witness :
    wrapAtSize mLen 12 5 100 ["abcdef"] =
      wrapAtSize mLen 12 5 100 (List.replicate 7 "aaaa") :=
  wrapFailure_uniform mLen mLen 12 12 5 5 100 100 _ _ wrapFail_width wrapFail_height

/-- The fallback word loop only ever appends to `wrapped_lines`. -/
theorem fallbackLoop_suffix (measure : String → ℕ → ℚ) (bw maxL : ℤ) :
    ∀ ws acc cur, ∃ ext, (fallbackLoop measure bw maxL ws acc cur).1 = acc ++ ext := by
  intro ws
  induction ws with
  | nil =>
    intro acc cur
    exact ⟨[], by simp [fallbackLoop]⟩
  | cons w ws ih =>
    intro acc cur
    simp only [fallbackLoop]
    by_cases hfit : measure (testLine cur w) 12 ≤ (bw : ℚ)
    · rw [if_pos hfit]
      exact ih acc _
    · rw [if_neg hfit]
      by_cases hlen : (acc.length : ℤ) < maxL
      · rw [if_pos hlen]
        obtain ⟨ext, hext⟩ := ih (acc ++ [cur]) w
        exact ⟨[cur] ++ ext, by simp [hext]⟩
      · rw [if_neg hlen]
        exact ⟨[], by simp⟩

/-- `max_lines` for a 20-pixel-high box at size 12: `int(20 / 14.4) = 1`. -/
theorem maxLinesZ_20_12 : maxLinesZ 20 12 = 1 := by
  norm_num [maxLinesZ, pyInt]

/-- Counterexample to C9: with `max_lines = 1` the fallback pass starts with
an empty line but then drops the over-wide word entirely — no returned line
measures wider than `box_width`. -/
theorem fallback_overwide_counterexample :
    (((5 : ℤ) : ℚ) < mLen "abcdef" 12) ∧ 1 ≤ maxLinesZ 20 12 ∧
    fallbackWrap mLen 5 20 ["abcdef"] = [""] ∧
    ¬ ∃ l ∈ fallbackWrap mLen 5 20 ["abcdef"], ((5 : ℤ) : ℚ) < mLen l 12 := by
  have hf : fallbackWrap mLen 5 20 ["abcdef"] = [""] := by
    simp only [fallbackWrap, maxLinesZ_20_12]
    decide
  refine ⟨by decide, by rw [maxLinesZ_20_12], hf, ?_⟩
  rw [hf]
  decide

/-- C9 (amended): in the fallback pass at size 12, if the first word is
over-wide, `max_lines ≥ 2`, and extending a nonempty line never shrinks its
measure, then the result begins with an empty line followed by the over-wide
word itself as a line (whose measure exceeds `box_width` by hypothesis). -/
theorem fallback_overwide (measure : String → ℕ → ℚ) (bw bh : ℤ)
    (w1 : String) (rest : List String) (hw1 : w1 ≠ "")
    (hwide : (bw : ℚ) < measure w1 12)
    (hmax : 2 ≤ maxLinesZ bh 12)
    (hmono : ∀ s w, s ≠ "" → measure s 12 ≤ measure (testLine s w) 12) :
    ∃ t, fallbackWrap measure bw bh (w1 :: rest) = "" :: w1 :: t := by
  unfold fallbackWrap
  rw [if_neg (by simp : ¬ (w1 :: rest = [])), if_neg (by omega : ¬ maxLinesZ bh 12 = 0)]
  have hstep : fallbackLoop measure bw (maxLinesZ bh 12) (w1 :: rest) [] "" =
      fallbackLoop measure bw (maxLinesZ bh 12) rest [""] w1 := by
    simp only [fallbackLoop, testLine_empty_left]
    rw [if_neg (not_le.mpr hwide), if_pos]
    · simp
    · simp
      omega
  rw [hstep]
  rcases rest with _ | ⟨w2, rest'⟩
  · simp only [fallbackLoop]
    rw [if_pos]
    · exact ⟨[], rfl⟩
    · constructor
      · exact hw1
      · simp
        omega
  · have hstep2 : fallbackLoop measure bw (maxLinesZ bh 12) (w2 :: rest') [""] w1 =
        fallbackLoop measure bw (maxLinesZ bh 12) rest' ["", w1] w2 := by
      simp only [fallbackLoop]
      rw [if_neg (not_le.mpr (lt_of_lt_of_le hwide (hmono w1 w2 hw1)))]
      rw [if_pos]
      · simp
      · simp
        omega
    rw [hstep2]
    obtain ⟨ext, hext⟩ := fallbackLoop_suffix measure bw (maxLinesZ bh 12) rest' ["", w1] w2
    by_cases hfin : (fallbackLoop measure bw (maxLinesZ bh 12) rest' ["", w1] w2).2 ≠ "" ∧
        (((fallbackLoop measure bw (maxLinesZ bh 12) rest' ["", w1] w2).1.length : ℤ) <
          maxLinesZ bh 12)
    · rw [if_pos hfin, hext]
      exact ⟨ext ++ [(fallbackLoop measure bw (maxLinesZ bh 12) rest' ["", w1] w2).2], by simp⟩
    · rw [if_neg hfin, hext]
      exact ⟨ext, by simp⟩

/-- `max_lines` for a 30-pixel-high box at size 12: `int(30 / 14.4) = 2`. -/
theorem maxLinesZ_30_12 : maxLinesZ 30 12 = 2 := by
  norm_num [maxLinesZ, pyInt]

/-- Character-count measure never shrinks when a line is extended. -/
theorem mLen_mono : ∀ s w : String, s ≠ "" → mLen s 12 ≤ mLen (testLine s w) 12 := by
  intro s w _
  simp only [mLen, testLine, String.length_append, Nat.cast_le]
  omega

/-- Witness for the amended C9: a concrete over-wide first word with
`max_lines = 2` yields an empty first line followed by the over-wide word. -/
theorem fallback_overwide_witness :
    ∃ t, fallbackWrap mLen 5 30 ["abcdef"] = "" :: "abcdef" :: t :=
  fallback_overwide mLen 5 30 "abcdef" [] (by decide) (by decide)
    (by rw [maxLinesZ_30_12]) mLen_mono

/-- Line height used by the overlay loop (app.py lines 294-302):
`actual_char_height * 1.2`, replaced by `size * 1.2` when nonpositive.
The character height reported by `font.getbbox("A")` is abstracted
by `charH`. -/
def lineHeight (charH : ℕ → ℚ) (size : ℕ) : ℚ :=
  let lh := charH size * (6 / 5)
  if lh ≤ 0 then (size : ℚ) * (6 / 5) else lh

/-- Per-line horizontal draw position (app.py lines 311-313):
`draw_x = max(x1, x1 + (box_width - line_width) / 2)`. -/
def lineX (measure : String → ℕ → ℚ) (size : ℕ) (x1 bw : ℚ) (line : String) : ℚ :=
  max x1 (x1 + (bw - measure line size) / 2)

/-- Vertical start of the block (app.py lines 305-307):
`start_y = max(y1, y1 + (box_height - total_text_height) / 2)`. -/
def startY (y1 bh lh : ℚ) (n : ℕ) : ℚ :=
  max y1 (y1 + (bh - (n : ℚ) * lh) / 2)

/-- The per-line drawing loop (app.py lines 309-320): a line is drawn when
`current_y + line_height <= y2 + 5`; `current_y` advances by `line_height`;
the loop breaks as soon as `current_y > y2` after advancing. -/
def drawLoop (measure : String → ℕ → ℚ) (size : ℕ) (x1 bw y2 lh : ℚ) :
    List String → ℚ → List (ℚ × ℚ × String)
  | [], _ => []
  | line :: rest, cy =>
    (if cy + lh ≤ y2 + 5 then [(lineX measure size x1 bw line, cy, line)] else []) ++
      (if y2 < cy + lh then [] else drawLoop measure size x1 bw y2 lh rest (cy + lh))

/-- Draw instructions for one block of wrapped lines, as the overlay loop
produces them (app.py lines 291-320). -/
def drawLines (measure : String → ℕ → ℚ) (size : ℕ) (x1 y1 y2 bw lh : ℚ)
    (lines : List String) : List (ℚ × ℚ × String) :=
  drawLoop measure size x1 bw y2 lh lines (startY y1 (y2 - y1) lh lines.length)

/-- Modelled from the claim text of C6: `current_y` advances by
`line_height` after each line and a line's draw instruction is omitted
exactly when `current_y + line_height > y2 + 5` (no early break). -/
def specLoop (measure : String → ℕ → ℚ) (size : ℕ) (x1 bw y2 lh : ℚ) :
    List String → ℚ → List (ℚ × ℚ × String)
  | [], _ => []
  | line :: rest, cy =>
    (if cy + lh ≤ y2 + 5 then [(lineX measure size x1 bw line, cy, line)] else []) ++
      specLoop measure size x1 bw y2 lh rest (cy + lh)

/-- Modelled from the claim text of C6: draw each line at
`(max(x1, x1 + (box_width - measure(line, size)) / 2), current_y)` starting
from `start_y = max(y1, y1 + (box_height - count * line_height) / 2)`,
omitting a line exactly when `current_y + line_height > y2 + 5`. -/
def specDrawLines (measure : String → ℕ → ℚ) (size : ℕ) (x1 y1 y2 bw lh : ℚ)
    (lines : List String) : List (ℚ × ℚ × String) :=
  specLoop measure size x1 bw y2 lh lines (startY y1 (y2 - y1) lh lines.length)

/-- Once `current_y` is past `y2`, a line height above 5 omits every
remaining line of the no-break layout. -/
theorem specLoop_past_end (measure : String → ℕ → ℚ) (size : ℕ)
    (x1 bw y2 lh : ℚ) (h5 : 5 < lh) :
    ∀ lines cy, y2 < cy → specLoop measure size x1 bw y2 lh lines cy = [] := by
  intro lines
  induction lines with
  | nil => intro cy _; rfl
  | cons line rest ih =>
    intro cy hy
    have hno : ¬ (cy + lh ≤ y2 + 5) := by linarith
    simp only [specLoop, if_neg hno, List.nil_append]
    exact ih (cy + lh) (by linarith)

/-- With a line height above 5, the code loop (with its break) and the
omit-exactly-when condition produce the same instructions. -/
theorem drawLoop_eq_specLoop (measure : String → ℕ → ℚ) (size : ℕ)
    (x1 bw y2 lh : ℚ) (h5 : 5 < lh) :
    ∀ lines cy, drawLoop measure size x1 bw y2 lh lines cy =
      specLoop measure size x1 bw y2 lh lines cy := by
  intro lines
  induction lines with
  | nil => intro cy; rfl
  | cons line rest ih =>
    intro cy
    simp only [drawLoop, specLoop]
    by_cases hbrk : y2 < cy + lh
    · rw [if_pos hbrk,
        specLoop_past_end measure size x1 bw y2 lh h5 rest (cy + lh) hbrk]
    · rw [if_neg hbrk, ih]

/-- C6 (amended): provided `line_height > 5`, the compositor draws each line
at the claimed centered position, advancing `current_y` by `line_height`,
and omits a line exactly when `current_y + line_height > y2 + 5`; with
`line_height ≤ 5` the early break can omit more lines than that condition. -/
theorem compositor_spec (measure : String → ℕ → ℚ) (size : ℕ)
    (x1 y1 y2 bw lh : ℚ) (lines : List String) (h5 : 5 < lh) :
    drawLines measure size x1 y1 y2 bw lh lines =
      specDrawLines measure size x1 y1 y2 bw lh lines :=
  drawLoop_eq_specLoop measure size x1 bw y2 lh h5 lines _

/-- Witness for the amended C6 at a concrete block. -/
theorem compositor_spec_witness :
    drawLines mLen 12 0 0 20 10 6 ["a"] = specDrawLines mLen 12 0 0 20 10 6 ["a"] :=
  compositor_spec mLen 12 0 0 20 10 6 ["a"] (by norm_num)

/-- The measure that reports width 0 for every string. -/
def mZero : String → ℕ → ℚ := fun _ _ => 0

/-- Counterexample to C6: with a line height of 1 (surfaced by the code's
own metric fallback chain), the break at `current_y > y2` omits the fifth
line even though `current_y + line_height ≤ y2 + 5` says it should be
drawn, so the omission condition of the claim mischaracterizes the code. -/
theorem compositor_counterexample :
    lineHeight (fun _ => 5 / 6) 12 = 1 ∧
    drawLines mZero 12 0 0 3 10 (lineHeight (fun _ => 5 / 6) 12)
        ["a", "b", "c", "d", "e"] ≠
      specDrawLines mZero 12 0 0 3 10 (lineHeight (fun _ => 5 / 6) 12)
        ["a", "b", "c", "d", "e"] := by
  have hlh : lineHeight (fun _ => 5 / 6) 12 = 1 := by
    norm_num [lineHeight]
  refine ⟨hlh, ?_⟩
  rw [hlh]
  have hcode : drawLines mZero 12 0 0 3 10 1 ["a", "b", "c", "d", "e"] =
      [(5, 0, "a"), (5, 1, "b"), (5, 2, "c"), (5, 3, "d")] := by
    norm_num [drawLines, drawLoop, startY, lineX, mZero, max_def]
  have hspec : specDrawLines mZero 12 0 0 3 10 1 ["a", "b", "c", "d", "e"] =
      [(5, 0, "a"), (5, 1, "b"), (5, 2, "c"), (5, 3, "d"), (5, 4, "e")] := by
    norm_num [specDrawLines, specLoop, startY, lineX, mZero, max_def]
  rw [hcode, hspec]
  simp

/-- An OCR bounding box: four corner points, as delivered by
`easyocr` with `paragraph=True` (app.py line 265). -/
structure Quad where
  p1 : ℤ × ℤ
  p2 : ℤ × ℤ
  p3 : ℤ × ℤ
  p4 : ℤ × ℤ

/-- A translated block: bounding box plus replacement text
(app.py line 235). -/
structure Block where
  bbox : Quad
  text : String

/-- An axis-aligned box. -/
structure RBox where
  x1 : ℤ
  y1 : ℤ
  x2 : ℤ
  y2 : ℤ

/-- Reduce a quadrilateral to an axis-aligned box and clamp it to the
canvas (app.py lines 267-274): `x1 = max(0, min(xs))`, `y1 = max(0, min(ys))`,
`x2 = min(width, max(xs))`, `y2 = min(height, max(ys))`. -/
def clampBox (imgW imgH : ℤ) (q : Quad) : RBox :=
  let x1 := min (min q.p1.1 q.p2.1) (min q.p3.1 q.p4.1)
  let y1 := min (min q.p1.2 q.p2.2) (min q.p3.2 q.p4.2)
  let x2 := max (max q.p1.1 q.p2.1) (max q.p3.1 q.p4.1)
  let y2 := max (max q.p1.2 q.p2.2) (max q.p3.2 q.p4.2)
  ⟨max 0 x1, max 0 y1, min imgW x2, min imgH y2⟩

/-- A canvas assigns a color to every pixel. -/
def Canvas (C : Type) : Type := ℤ × ℤ → C

/-- A paint instruction: the pixels it covers and the color it writes
there; `none` leaves a pixel untouched.  Instructions are determined
entirely by their arguments — the code never reads canvas pixels. -/
def Instr (C : Type) : Type := ℤ × ℤ → Option C

/-- `draw.rectangle([(x1, y1), (x2, y2)], fill='white', outline="lightgray")`
(app.py line 285): border pixels get the outline color, interior pixels the
fill color. -/
def rectPaint (C : Type) (white lightgray : C) (r : RBox) : Instr C := fun p =>
  if r.x1 ≤ p.1 ∧ p.1 ≤ r.x2 ∧ r.y1 ≤ p.2 ∧ p.2 ≤ r.y2 then
    if p.1 = r.x1 ∨ p.1 = r.x2 ∨ p.2 = r.y1 ∨ p.2 = r.y2 then some lightgray
    else some white
  else none

/-- External collaborators of the overlay loop: the abstract text measure,
the abstract character-height metric, the glyph rasterizer behind
`draw.text` (a paint region determined by position, line and font size),
and the two fill colors. -/
structure RenderParams (C : Type) where
  measure : String → ℕ → ℚ
  charH : ℕ → ℚ
  glyph : ℚ × ℚ → String → ℕ → Instr C
  white : C
  lightgray : C

/-- The per-block layout computation of the overlay loop (app.py lines
252-320, side effects excluded): clamp the box, reject degenerate boxes,
wrap, and compute the per-line draw positions.  Returns the chosen font
size and the positioned lines; a skipped or empty block yields no lines. -/
def blockLayout (measure : String → ℕ → ℚ) (charH : ℕ → ℚ) (imgW imgH : ℤ)
    (b : Block) : ℕ × List (ℚ × ℚ × String) :=
  let r := clampBox imgW imgH b.bbox
  if r.x2 - r.x1 ≤ 0 ∨ r.y2 - r.y1 ≤ 0 then (0, [])
  else
    let sl := wrap_text_and_find_font measure b.text (r.x2 - r.x1) (r.y2 - r.y1)
    if sl.2 = [] then (sl.1, [])
    else
      (sl.1, drawLines measure sl.1 ((r.x1 : ℤ) : ℚ) ((r.y1 : ℤ) : ℚ)
        ((r.y2 : ℤ) : ℚ) (((r.x2 - r.x1 : ℤ)) : ℚ) (lineHeight charH sl.1) sl.2)

/-- The paint instructions one block contributes, in program order
(app.py lines 252-320): nothing for a degenerate box, otherwise the white
erase rectangle followed by one glyph paint per laid-out line. -/
def blockInstrs (C : Type) (P : RenderParams C) (imgW imgH : ℤ) (b : Block) :
    List (Instr C) :=
  let r := clampBox imgW imgH b.bbox
  if r.x2 - r.x1 ≤ 0 ∨ r.y2 - r.y1 ≤ 0 then []
  else
    let sl := blockLayout P.measure P.charH imgW imgH b
    rectPaint C P.white P.lightgray r ::
      sl.2.map (fun d => P.glyph (d.1, d.2.1) d.2.2 sl.1)

/-- Write one instruction onto the canvas. -/
def applyInstr (C : Type) (c : Canvas C) (i : Instr C) : Canvas C :=
  fun p => (i p).getD (c p)

/-- Apply a sequence of paint instructions left to right. -/
def applySeq (C : Type) : List (Instr C) → Canvas C → Canvas C
  | [], c => c
  | i :: rest, c => applySeq C rest (applyInstr C c i)

/-- The full overlay pass (app.py lines 252-320): each block's
instructions, in input order, applied to the canvas. -/
def renderAll (C : Type) (P : RenderParams C) (imgW imgH : ℤ)
    (blocks : List Block) (c : Canvas C) : Canvas C :=
  applySeq C (List.flatten (blocks.map (blockInstrs C P imgW imgH))) c

/-- The last instruction of a sequence to paint a pixel, if any. -/
def seqPaint (C : Type) : List (Instr C) → ℤ × ℤ → Option C
  | [], _ => none
  | i :: rest, p => (seqPaint C rest p).orElse (fun _ => i p)

/-- A canvas after a paint sequence shows, at each pixel, the last paint
at that pixel, or the original canvas where never painted. -/
theorem applySeq_eq_seqPaint (C : Type) (l : List (Instr C)) :
    ∀ c : Canvas C, applySeq C l c = fun p => (seqPaint C l p).getD (c p) := by
  induction l with
  | nil => intro c; rfl
  | cons i rest ih =>
    intro c
    funext p
    simp only [applySeq, seqPaint]
    rw [ih (applyInstr C c i)]
    cases h : seqPaint C rest p with
    | none => simp [h, applyInstr, Option.orElse]
    | some v => simp [h, Option.orElse]

/-- Replaying a fixed paint sequence is idempotent: painted pixels get the
same last paint again, untouched pixels keep the value the first pass left. -/
theorem applySeq_idem (C : Type) (l : List (Instr C)) (c : Canvas C) :
    applySeq C l (applySeq C l c) = applySeq C l c := by
  rw [applySeq_eq_seqPaint C l (applySeq C l c), applySeq_eq_seqPaint C l c]
  funext p
  cases h : seqPaint C l p with
  | none => simp [h]
  | some v => simp [h]

/-- C7: applying the Overlay Renderer (erase each valid box, lay out, draw)
twice in succession with the same block list yields the same final pixels
as applying it once.  The instruction list is computed from the blocks and
metrics alone — the code never reads canvas pixels — so the second pass
repaints exactly what the first painted. -/
theorem render_idempotent (C : Type) (P : RenderParams C) (imgW imgH : ℤ)
    (blocks : List Block) (c : Canvas C) :
    renderAll C P imgW imgH blocks (renderAll C P imgW imgH blocks c) =
      renderAll C P imgW imgH blocks c :=
  applySeq_idem C (List.flatten (blocks.map (blockInstrs C P imgW imgH))) c

/-- app.py line 235: `"text": translated_text if translated_text else " "` —
an empty replacement text becomes a single space. -/
def normalizeBlockText (t : String) : String := if t = "" then " " else t

/-- `" "` tokenizes to no words, so the wrap returns size 40 with no lines. -/
theorem wrap_space (measure : String → ℕ → ℚ) (bw bh : ℤ) :
    wrap_text_and_find_font measure " " bw bh = (40, []) := rfl

/-- C5 (amended): an empty replacement text is normalized to a single
space, which tokenizes to zero words; the renderer then draws no text at
all — the erased box stays blank (a could-not-fit warning is reported) —
and nothing raises.  It does not render one blank line. -/
theorem empty_text_blank (C : Type) (P : RenderParams C) (imgW imgH : ℤ)
    (q : Quad) :
    normalizeBlockText "" = " " ∧
    (blockLayout P.measure P.charH imgW imgH ⟨q, normalizeBlockText ""⟩).2 = [] ∧
    (blockInstrs C P imgW imgH ⟨q, normalizeBlockText ""⟩).length ≤ 1 := by
  have hnorm : normalizeBlockText "" = " " := rfl
  have hlayout :
      (blockLayout P.measure P.charH imgW imgH ⟨q, normalizeBlockText ""⟩).2 = [] := by
    rw [hnorm]
    unfold blockLayout
    by_cases hval : (clampBox imgW imgH q).x2 - (clampBox imgW imgH q).x1 ≤ 0 ∨
        (clampBox imgW imgH q).y2 - (clampBox imgW imgH q).y1 ≤ 0
    · rw [if_pos hval]
    · rw [if_neg hval]
      simp [wrap_space]
  refine ⟨hnorm, hlayout, ?_⟩
  unfold blockInstrs
  by_cases hval : (clampBox imgW imgH q).x2 - (clampBox imgW imgH q).x1 ≤ 0 ∨
      (clampBox imgW imgH q).y2 - (clampBox imgW imgH q).y1 ≤ 0
  · rw [if_pos hval]
    simp
  · rw [if_neg hval]
    simp [hlayout]

/-- Counterexample to C5: for a valid 100 × 40 box with empty replacement
text, the renderer produces zero text-draw instructions, not one
blank-ish line. -/
theorem empty_text_counterexample :
    ((clampBox 200 100 ⟨(0, 0), (100, 0), (100, 40), (0, 40)⟩).x2 -
        (clampBox 200 100 ⟨(0, 0), (100, 0), (100, 40), (0, 40)⟩).x1 > 0) ∧
    ((clampBox 200 100 ⟨(0, 0), (100, 0), (100, 40), (0, 40)⟩).y2 -
        (clampBox 200 100 ⟨(0, 0), (100, 0), (100, 40), (0, 40)⟩).y1 > 0) ∧
    (blockLayout mLen (fun _ => 10) 200 100
        ⟨⟨(0, 0), (100, 0), (100, 40), (0, 40)⟩, normalizeBlockText ""⟩).2.length = 0 ∧
    ¬ ((blockLayout mLen (fun _ => 10) 200 100
        ⟨⟨(0, 0), (100, 0), (100, 40), (0, 40)⟩, normalizeBlockText ""⟩).2.length = 1) := by
  refine ⟨by decide, by decide, by decide, by decide⟩

/-- `load_font` (app.py lines 54-64): when the font file is missing or
corrupt it falls back to `ImageFont.load_default()` and emits one
message on every single call. -/
def load_font_warnings (fontMissing : Bool) : ℕ := if fontMissing then 1 else 0

/-- The size loop with the `load_font` call of each executed iteration
instrumented (app.py line 73 runs once per iteration, before any check). -/
def searchSizesW (fontMissing : Bool) (measure : String → ℕ → ℚ) (bw bh : ℤ)
    (words : List String) : List ℕ → ℕ × Option (ℕ × List String)
  | [] => (0, none)
  | s :: rest =>
    match wrapAtSize measure s bw bh words with
    | some lines => (load_font_warnings fontMissing, some (s, lines))
    | none =>
      let r := searchSizesW fontMissing measure bw bh words rest
      (load_font_warnings fontMissing + r.1, r.2)

/-- `wrap_text_and_find_font` with its `load_font` calls instrumented;
the fallback pass loads the font once more (app.py line 122).  Returns the
number of font messages emitted and the wrap result. -/
def wrap_text_and_find_font_w (fontMissing : Bool) (measure : String → ℕ → ℚ)
    (text : String) (bw bh : ℤ) : ℕ × (ℕ × List String) :=
  let words := pySplit text
  let r := searchSizesW fontMissing measure bw bh words sizesList
  match r.2 with
  | some res => (r.1, res)
  | none => (r.1 + load_font_warnings fontMissing, (12, fallbackWrap measure bw bh words))

/-- The number of font-size trials a wrap performs: the executed size-loop
iterations, plus one for the fallback pass when every size fails. -/
def trialsOn (measure : String → ℕ → ℚ) (bw bh : ℤ) (words : List String) :
    List ℕ → ℕ
  | [] => 1
  | s :: rest =>
    if (wrapAtSize measure s bw bh words).isSome then 1
    else 1 + trialsOn measure bw bh words rest

/-- The number of `load_font` calls `wrap_text_and_find_font` makes. -/
def trialCount (measure : String → ℕ → ℚ) (text : String) (bw bh : ℤ) : ℕ :=
  trialsOn measure bw bh (pySplit text) sizesList

/-- The instrumented size loop performs the same search as the plain one
and emits one message per executed iteration when the font is missing. -/
theorem searchSizesW_spec (fontMissing : Bool) (measure : String → ℕ → ℚ)
    (bw bh : ℤ) (words : List String) :
    ∀ l : List ℕ,
      (searchSizesW fontMissing measure bw bh words l).2 =
        searchSizes measure bw bh words l ∧
      (∀ r, searchSizes measure bw bh words l = some r →
        (searchSizesW fontMissing measure bw bh words l).1 =
          if fontMissing then trialsOn measure bw bh words l else 0) ∧
      (searchSizes measure bw bh words l = none →
        (searchSizesW fontMissing measure bw bh words l).1 +
            load_font_warnings fontMissing =
          if fontMissing then trialsOn measure bw bh words l else 0) := by
  intro l
  induction l with
  | nil =>
    refine ⟨rfl, ?_, ?_⟩
    · intro r hr
      simp [searchSizes] at hr
    · intro _
      simp [searchSizesW, trialsOn, load_font_warnings]
  | cons s rest ih =>
    rcases hw : wrapAtSize measure s bw bh words with _ | lines
    · have h2 : (searchSizesW fontMissing measure bw bh words (s :: rest)).2 =
          searchSizes measure bw bh words rest := by
        simp only [searchSizesW, searchSizes, hw]
        exact ih.1
      have hwarn : (searchSizesW fontMissing measure bw bh words (s :: rest)).1 =
          load_font_warnings fontMissing +
            (searchSizesW fontMissing measure bw bh words rest).1 := by
        simp only [searchSizesW, hw]
      have hsearch : searchSizes measure bw bh words (s :: rest) =
          searchSizes measure bw bh words rest := by
        simp only [searchSizes, hw]
      have htr : trialsOn measure bw bh words (s :: rest) =
          1 + trialsOn measure bw bh words rest := by
        simp only [trialsOn, hw, Option.isSome_none, Bool.false_eq_true, if_false]
      refine ⟨by rw [h2, hsearch], ?_, ?_⟩
      · intro r hr
        rw [hsearch] at hr
        rw [hwarn, htr, ih.2.1 r hr]
        cases fontMissing with
        | true => simp [load_font_warnings]
        | false => simp [load_font_warnings]
      · intro hn
        rw [hsearch] at hn
        have := ih.2.2 hn
        rw [hwarn, htr]
        cases fontMissing with
        | true => simp [load_font_warnings] at this ⊢; omega
        | false => simp [load_font_warnings] at this ⊢; omega
    · have heq : searchSizesW fontMissing measure bw bh words (s :: rest) =
          (load_font_warnings fontMissing, some (s, lines)) := by
        simp only [searchSizesW, hw]
      have hsearch : searchSizes measure bw bh words (s :: rest) = some (s, lines) := by
        simp only [searchSizes, hw]
      have htr : trialsOn measure bw bh words (s :: rest) = 1 := by
        simp only [trialsOn, hw, Option.isSome_some, if_true]
      refine ⟨by rw [heq, hsearch], ?_, ?_⟩
      · intro r _
        rw [heq, htr]
        rfl
      · intro hn
        rw [hsearch] at hn
        simp at hn

/-- C8 (amended): when the font resource is missing, one warning is
emitted per `load_font` call — one per executed font-size trial plus one
for the fallback pass — not at most one per run; when the font loads, no
warning is emitted.  The instrumentation does not change the wrap result. -/
theorem font_warnings_per_trial (fontMissing : Bool) (measure : String → ℕ → ℚ)
    (text : String) (bw bh : ℤ) :
    (wrap_text_and_find_font_w fontMissing measure text bw bh).1 =
      (if fontMissing then trialCount measure text bw bh else 0) ∧
    (wrap_text_and_find_font_w fontMissing measure text bw bh).2 =
      wrap_text_and_find_font measure text bw bh := by
  have h := searchSizesW_spec fontMissing measure bw bh (pySplit text) sizesList
  unfold wrap_text_and_find_font_w wrap_text_and_find_font trialCount
  rcases hs : searchSizes measure bw bh (pySplit text) sizesList with _ | r
  · rw [hs] at h
    constructor
    · simp only [h.1, hs]
      exact h.2.2 rfl
    · simp only [h.1, hs]
  · rw [hs] at h
    constructor
    · simp only [h.1, hs]
      exact h.2.1 r rfl
    · simp only [h.1, hs]

/-- `max_lines` for a 46-pixel-high box at size 40: `int(46 / 48) = 0`. -/
theorem maxLinesZ_46_40 : maxLinesZ 46 40 = 0 := by
  norm_num [maxLinesZ, pyInt]

/-- `max_lines` for a 46-pixel-high box at size 38: `int(46 / 45.6) = 1`. -/
theorem maxLinesZ_46_38 : maxLinesZ 46 38 = 1 := by
  norm_num [maxLinesZ, pyInt]

/-- Size 40 fails on a 46-pixel-high box (no room for one line). -/
theorem wrapFail_46_40 : wrapAtSize mLen 40 100 46 (pySplit "a") = none := by
  simp only [wrapAtSize, maxLinesZ_46_40]
  decide

/-- Size 38 succeeds on a 100 × 46 box with the text `"a"`. -/
theorem wrapOk_46_38 : wrapAtSize mLen 38 100 46 (pySplit "a") = some ["a"] := by
  simp only [wrapAtSize, maxLinesZ_46_38]
  decide

/-- Counterexample to C8: with the font file missing, a single block whose
search fails at size 40 and succeeds at size 38 already emits two font
warnings — the code warns on every `load_font` call, not once per run. -/
theorem font_warning_counterexample :
    (wrap_text_and_find_font_w true mLen "a" 100 46).1 = 2 ∧
    ¬ ((wrap_text_and_find_font_w true mLen "a" 100 46).1 ≤ 1) := by
  have h : (wrap_text_and_find_font_w true mLen "a" 100 46).1 = 2 := by
    simp only [wrap_text_and_find_font_w, sizesList, searchSizesW,
      wrapFail_46_40, wrapOk_46_38, load_font_warnings]
    rfl
  exact ⟨h, by rw [h]; omega⟩

end OCRApp
